import Mathlib

/-!
Verification of the image-browsing utility's core logic: URL normalization
(`ensureAbsoluteUrl`), anchor-link extraction (`extractImageLinks`), and the
submit/navigation state machine (`handleSubmit`, `handlePrev`, `handleNext`).

The two browser primitives the code calls — the WHATWG `URL` constructor and
`DOMParser`/`querySelectorAll('a[href]')` — are not part of the repository;
they are modelled here from the spec's description ("standard URL syntax,
requiring a scheme", "standard relative-URL resolution rules", "canonical
string form", tolerant HTML parsing collecting anchors in document order),
simplified to the `scheme://host/path?query` fragment of the URL grammar that
the application exercises.
-/

namespace ImageBrowser

/-- Modelled from the spec: a parsed absolute URL, the result of the browser
`URL` primitive ("standard URL syntax, requiring a scheme").  Fields are kept
as character lists; `query` is either empty or begins with `'?'`. -/
structure URL where
  scheme : List Char
  host : List Char
  path : List Char
  query : List Char
  deriving Repr, DecidableEq

def isAlphaChar (c : Char) : Bool :=
  ('a' ≤ c && c ≤ 'z') || ('A' ≤ c && c ≤ 'Z')

def isSchemeTailChar (c : Char) : Bool :=
  isAlphaChar c || c.isDigit || c == '+' || c == '-' || c == '.'

def notColon (c : Char) : Bool := c != ':'

def notSlashQ (c : Char) : Bool := c != '/' && c != '?'

def notQ (c : Char) : Bool := c != '?'

/-- Modelled from the spec: the browser `URL` constructor on an absolute URL
string ("standard URL syntax, requiring a scheme"); `none` models the thrown
`TypeError`.  Requires `scheme://host…` with a nonempty alphabetic-led scheme
and a nonempty host; the path defaults to `/` and the query keeps its `?`. -/
def parseURL (cs : List Char) : Option URL :=
  match cs.dropWhile notColon with
  | ':' :: '/' :: '/' :: r =>
    match cs.takeWhile notColon with
    | [] => none
    | c :: tl =>
      if isAlphaChar c && tl.all isSchemeTailChar then
        match r.takeWhile notSlashQ with
        | [] => none
        | h1 :: ht =>
          let rem := r.dropWhile notSlashQ
          let pathRaw := rem.takeWhile notQ
          some { scheme := c :: tl, host := h1 :: ht,
                 path := if pathRaw = [] then ['/'] else pathRaw,
                 query := rem.dropWhile notQ }
      else none
  | _ => none

/-- Canonical serialization of a parsed URL (the `toString` of the browser
`URL` primitive, modelled from the spec's "canonical string form"). -/
def URL.serializeList (u : URL) : List Char :=
  u.scheme ++ ':' :: '/' :: '/' :: (u.host ++ u.path ++ u.query)

def URL.serialize (u : URL) : String :=
  String.mk u.serializeList

/-- `ensureAbsoluteUrl` from `src/App.js`: empty input fails; otherwise parse
directly, and on failure retry with `https://` prepended; `none` models the
returned `null`. -/
def ensureAbsoluteUrl (rawUrl : String) : Option String :=
  if rawUrl = "" then none
  else
    match parseURL rawUrl.data with
    | some u => some u.serialize
    | none =>
      match parseURL (("https://" ++ rawUrl).data) with
      | some u => some u.serialize
      | none => none

/-- Skip characters up to and including the next `'>'`. -/
def skipToGt : List Char → List Char
  | [] => []
  | c :: rest => if c = '>' then rest else skipToGt rest

/-- Recognize an `href="` attribute opener at the head of the text and return
what follows the opening quote. -/
def hrefAttrSplit : List Char → Option (List Char)
  | 'h' :: 'r' :: 'e' :: 'f' :: '=' :: '"' :: rest => some rest
  | _ => none

/-- Modelled from the spec: scanning one anchor tag's attribute region for an
`href="…"` value (the `a[href]` selector plus `getAttribute('href')`); returns
the value when present and the text following the tag. -/
def scanTagForHref : List Char → Option String × List Char
  | [] => (none, [])
  | c :: rest =>
    if c = '>' then (none, rest)
    else
      match hrefAttrSplit (c :: rest) with
      | some after =>
        (some (String.mk (after.takeWhile (· != '"'))),
         skipToGt ((after.dropWhile (· != '"')).drop 1))
      | none => scanTagForHref rest

theorem skipToGt_length_le (l : List Char) : (skipToGt l).length ≤ l.length := by
  induction l with
  | nil => simp [skipToGt]
  | cons c rest ih =>
    simp only [skipToGt]
    split
    · simp
    · exact Nat.le_succ_of_le ih

theorem length_dropWhile_le (p : Char → Bool) (l : List Char) :
    (l.dropWhile p).length ≤ l.length := by
  induction l with
  | nil => simp [List.dropWhile]
  | cons c rest ih =>
    simp only [List.dropWhile]
    split
    · exact Nat.le_succ_of_le ih
    · simp

theorem hrefAttrSplit_length {l after : List Char} (h : hrefAttrSplit l = some after) :
    l.length = after.length + 6 := by
  unfold hrefAttrSplit at h
  split at h
  · simp_all
  · simp_all

theorem scanTagForHref_length_le (l : List Char) : (scanTagForHref l).2.length ≤ l.length := by
  induction l with
  | nil => simp [scanTagForHref]
  | cons c rest ih =>
    simp only [scanTagForHref]
    split
    · simp
    · split
      · rename_i after h
        have h6 := hrefAttrSplit_length h
        have h1 : (skipToGt ((after.dropWhile (· != '"')).drop 1)).length
            ≤ ((after.dropWhile (· != '"')).drop 1).length := skipToGt_length_le _
        have h2 : ((after.dropWhile (· != '"')).drop 1).length
            ≤ (after.dropWhile (· != '"')).length := by
          rw [List.length_drop]; omega
        have h3 : (after.dropWhile (· != '"')).length ≤ after.length :=
          length_dropWhile_le _ _
        simp only [List.length_cons] at h6 ⊢
        omega
      · exact Nat.le_succ_of_le ih

/-- Fuel-indexed anchor scan; the fuel only serves to make the recursion
structural, and `anchorHrefs` supplies enough of it. -/
def anchorHrefsFuel : Nat → List Char → List String
  | 0, _ => []
  | _ + 1, [] => []
  | fuel + 1, '<' :: 'a' :: ' ' :: rest =>
    match scanTagForHref rest with
    | (some href, rest') => href :: anchorHrefsFuel fuel rest'
    | (none, rest') => anchorHrefsFuel fuel rest'
  | fuel + 1, _ :: rest => anchorHrefsFuel fuel rest

/-- Modelled from the spec: the browser HTML parse plus
`querySelectorAll('a[href]')` — collect, in document order, the `href`
attribute values of the anchor tags of the (possibly malformed) HTML text. -/
def anchorHrefs (l : List Char) : List String := anchorHrefsFuel l.length l

/-- The directory portion of a path: everything up to and including the last
`'/'`. -/
def dirOf (p : List Char) : List Char :=
  (p.reverse.dropWhile (· != '/')).reverse

/-- Modelled from the spec: `new URL(href, base)` — "standard relative-URL
resolution rules".  Absolute hrefs stand alone; `//…` takes the base's scheme;
`/…` replaces the path; `?…` replaces the query; empty resolves to the base;
anything else is resolved against the base path's directory.  `none` models
the thrown `TypeError` on a malformed href. -/
def resolveURL (href : List Char) (base : URL) : Option URL :=
  match parseURL href with
  | some u => some u
  | none =>
    match href with
    | [] => some base
    | '/' :: '/' :: _ => parseURL (base.scheme ++ ':' :: href)
    | '/' :: _ =>
      some { base with path := href.takeWhile notQ, query := href.dropWhile notQ }
    | '?' :: _ => some { base with path := base.path, query := href }
    | _ =>
      some { base with path := dirOf base.path ++ href.takeWhile notQ,
                       query := href.dropWhile notQ }

/-- `IMAGE_SUFFIXES` from `src/App.js`. -/
def IMAGE_SUFFIXES : List String := ["png", "jpg", "jpeg"]

/-- The extractor's filter: the URL's path, lower-cased, ends with `.png`,
`.jpg`, or `.jpeg` (`pathname.toLowerCase().endsWith('.' + suffix)`). -/
def isImageURL (u : URL) : Bool :=
  IMAGE_SUFFIXES.any (fun suffix =>
    ('.' :: suffix.data).isSuffixOf (u.path.map Char.toLower))

/-- First-occurrence deduplication with the set of already-seen values as an
accumulator. -/
def dedupFirstAux (seen : List String) : List String → List String
  | [] => []
  | x :: xs =>
    if x ∈ seen then dedupFirstAux seen xs
    else x :: dedupFirstAux (x :: seen) xs

/-- First-occurrence deduplication: the order-preserving semantics of
`Array.from(new Set(xs))` in `src/App.js`. -/
def dedupFirst (l : List String) : List String := dedupFirstAux [] l

/-- The qualifying resolved URLs, before deduplication: anchors' hrefs
resolved against the base (failures dropped), filtered to image paths,
serialized — the `map`/`filter`/`filter`/`map` pipeline of
`extractImageLinks`. -/
def qualifyingUrls (htmlText : String) (base : URL) : List String :=
  ((((anchorHrefs htmlText.data).map (fun h => resolveURL h.data base)).reduceOption).filter
    isImageURL).map URL.serialize

/-- `extractImageLinks` from `src/App.js`: parse the base URL (a throw is
modelled by `none`), resolve every anchor href against it, keep image paths,
serialize, and deduplicate preserving first occurrence. -/
def extractImageLinks (htmlText : String) (baseUrl : String) : Option (List String) :=
  match parseURL baseUrl.data with
  | none => none
  | some base => some (dedupFirst (qualifyingUrls htmlText base))

/-- The React state of `App()`: input text, image URL list, selection index,
loading flag, and error message. -/
structure AppState where
  urlInput : String
  imageUrls : List String
  selectedIndex : Nat
  loading : Bool
  error : String
  deriving Repr, DecidableEq

/-- The initial hook values of `App()`. -/
def initialState : AppState :=
  { urlInput := "", imageUrls := [], selectedIndex := 0, loading := false, error := "" }

/-- Characters removed by JavaScript `String.prototype.trim`. -/
def isJsSpace (c : Char) : Bool :=
  c == ' ' || c == '\t' || c == '\n' || c == '\r'

/-- Modelled from the spec: JavaScript `String.prototype.trim`, dropping
whitespace from both ends ("given a trimmed input string"). -/
def trimString (s : String) : String :=
  String.mk (((s.data.dropWhile isJsSpace).reverse.dropWhile isJsSpace).reverse)

/-- The settled result of `await fetch(...)` (plus `await response.text()`):
either the promise rejected with a value (`isError` records whether that value
is an `Error` instance, `message` its message), or it resolved with a status
(`ok` is the 2xx flag) and a body. -/
inductive FetchOutcome where
  | rejected (isError : Bool) (message : String)
  | resolved (ok : Bool) (status : Nat) (body : String)
  deriving Repr, DecidableEq

/-- `handleSubmit` from `src/App.js`, as a function from the pre-submit state
and the fetch outcome to the settled post-submit state; the `Bool` records
whether a fetch was attempted.  The `finally` clause makes `loading` false in
every settled state.  The unreachable inner `none` of `extractImageLinks`
(its base is the already-validated normalized URL) models the caught
`TypeError`, whose message the catch clause displays. -/
def handleSubmit (st : AppState) (outcome : FetchOutcome) : AppState × Bool :=
  match ensureAbsoluteUrl (trimString st.urlInput) with
  | none =>
    ({ st with error := "Enter a valid URL (include protocol or a valid domain).",
               imageUrls := [], selectedIndex := 0 }, false)
  | some normalizedUrl =>
    match outcome with
    | .rejected isError message =>
      ({ st with loading := false,
                 error := if isError then message else "Unable to fetch the provided URL.",
                 imageUrls := [], selectedIndex := 0 }, true)
    | .resolved ok status body =>
      if ok then
        match extractImageLinks body normalizedUrl with
        | some links =>
          ({ st with loading := false,
                     error := if links = [] then "No image links found on this page." else "",
                     imageUrls := links, selectedIndex := 0 }, true)
        | none =>
          ({ st with loading := false, error := "Invalid URL",
                     imageUrls := [], selectedIndex := 0 }, true)
      else
        ({ st with loading := false,
                   error := "Request failed with status " ++ toString status,
                   imageUrls := [], selectedIndex := 0 }, true)

/-- `handlePrev` from `src/App.js`: `current > 0 ? current - 1 : current`. -/
def handlePrev (st : AppState) : AppState :=
  { st with selectedIndex := if st.selectedIndex > 0 then st.selectedIndex - 1 else st.selectedIndex }

/-- `handleNext` from `src/App.js`:
`current < imageUrls.length - 1 ? current + 1 : current`. -/
def handleNext (st : AppState) : AppState :=
  { st with selectedIndex :=
      if st.selectedIndex < st.imageUrls.length - 1 then st.selectedIndex + 1
      else st.selectedIndex }

/-- The user-triggered events of `App()`: typing in the input (disabled while
loading), submitting the form (the button is disabled while loading; the
fetch outcome parametrizes the settled result), the previous/next viewer
buttons, clicking the list item at index `i` (such a button exists only for
`i < length`), and the ArrowUp/ArrowDown key handler (inactive on an empty
list). -/
inductive Step where
  | setInput (s : String)
  | submit (outcome : FetchOutcome)
  | prev
  | next
  | select (i : Nat)
  | keyUp
  | keyDown

/-- One UI transition of `App()`. -/
def stepFn (st : AppState) : Step → AppState
  | .setInput s => if st.loading then st else { st with urlInput := s }
  | .submit outcome => if st.loading then st else (handleSubmit st outcome).1
  | .prev => handlePrev st
  | .next => handleNext st
  | .select i => if i < st.imageUrls.length then { st with selectedIndex := i } else st
  | .keyUp => if st.imageUrls.length = 0 then st else handlePrev st
  | .keyDown => if st.imageUrls.length = 0 then st else handleNext st

/-- The states the UI can reach from the initial render. -/
inductive Reachable : AppState → Prop where
  | init : Reachable initialState
  | step {st : AppState} (a : Step) : Reachable st → Reachable (stepFn st a)

/-! ### takeWhile / dropWhile toolbox -/

theorem takeWhile_append_of_all {p : Char → Bool} {l₁ : List Char}
    (h : ∀ a ∈ l₁, p a = true) (l₂ : List Char) :
    (l₁ ++ l₂).takeWhile p = l₁ ++ l₂.takeWhile p := by
  induction l₁ with
  | nil => simp
  | cons c rest ih =>
    have hc : p c = true := h c (by simp)
    simp only [List.cons_append, List.takeWhile_cons, hc, if_true, List.cons_inj_right]
    exact ih (fun a ha => h a (by simp [ha]))

theorem dropWhile_append_of_all {p : Char → Bool} {l₁ : List Char}
    (h : ∀ a ∈ l₁, p a = true) (l₂ : List Char) :
    (l₁ ++ l₂).dropWhile p = l₂.dropWhile p := by
  induction l₁ with
  | nil => simp
  | cons c rest ih =>
    have hc : p c = true := h c (by simp)
    simp only [List.cons_append, List.dropWhile_cons, hc, if_true]
    exact ih (fun a ha => h a (by simp [ha]))

theorem mem_takeWhile {p : Char → Bool} {l : List Char} {a : Char}
    (h : a ∈ l.takeWhile p) : p a = true := by
  induction l with
  | nil => simp [List.takeWhile] at h
  | cons c rest ih =>
    rw [List.takeWhile_cons] at h
    by_cases hc : p c = true
    · rw [if_pos hc] at h
      rcases List.mem_cons.mp h with rfl | h'
      · exact hc
      · exact ih h'
    · rw [if_neg hc] at h
      exact absurd h (List.not_mem_nil a)

theorem dropWhile_head_false {p : Char → Bool} {l : List Char} {c : Char} {r : List Char}
    (h : l.dropWhile p = c :: r) : p c = false := by
  induction l with
  | nil => simp [List.dropWhile] at h
  | cons d rest ih =>
    rw [List.dropWhile_cons] at h
    by_cases hd : p d = true
    · rw [if_pos hd] at h
      exact ih h
    · rw [if_neg hd] at h
      cases h
      exact Bool.eq_false_iff.mpr hd

/-! ### Parse / serialize round trip -/

/-- The shape invariant that every output of `parseURL` satisfies. -/
def ValidURL (u : URL) : Prop :=
  (∃ c tl, u.scheme = c :: tl ∧ isAlphaChar c = true ∧ tl.all isSchemeTailChar = true) ∧
  u.host ≠ [] ∧ (∀ a ∈ u.host, notSlashQ a = true) ∧
  (∃ p, u.path = '/' :: p) ∧ (∀ a ∈ u.path, notQ a = true) ∧
  (u.query = [] ∨ ∃ q, u.query = '?' :: q)

theorem isAlphaChar_notColon {c : Char} (h : isAlphaChar c = true) : notColon c = true := by
  rcases eq_or_ne c ':' with rfl | hne
  · exact absurd h (by decide)
  · simp [notColon, hne]

theorem isSchemeTailChar_notColon {c : Char} (h : isSchemeTailChar c = true) :
    notColon c = true := by
  rcases eq_or_ne c ':' with rfl | hne
  · exact absurd h (by decide)
  · simp [notColon, hne]

theorem notSlashQ_false_cases {c : Char} (h : notSlashQ c = false) : c = '/' ∨ c = '?' := by
  simp only [notSlashQ, Bool.and_eq_false_iff, bne_eq_false_iff_eq] at h
  exact h

theorem notQ_false_eq {c : Char} (h : notQ c = false) : c = '?' := by
  simpa [notQ] using h

theorem parseURL_valid {cs : List Char} {u : URL} (h : parseURL cs = some u) :
    ValidURL u := by
  unfold parseURL at h
  split at h
  case h_2 => exact absurd h (by simp)
  case h_1 r hr =>
    split at h
    case h_1 => exact absurd h (by simp)
    case h_2 c tl hs =>
      split at h
      case isFalse => exact absurd h (by simp)
      case isTrue hcond =>
        split at h
        case h_1 => exact absurd h (by simp)
        case h_2 h1 ht hh =>
          rw [Option.some_inj] at h
          subst h
          obtain ⟨hca, htl⟩ := Bool.and_eq_true_iff.mp hcond
          refine ⟨⟨c, tl, rfl, hca, htl⟩, by simp, ?_, ?_, ?_, ?_⟩
          · intro a ha

            exact mem_takeWhile (hh ▸ ha)
          · by_cases hp : (r.dropWhile notSlashQ).takeWhile notQ = []
            · exact ⟨[], by simp [hp]⟩
            · obtain ⟨d, rest, hdr⟩ := List.exists_cons_of_ne_nil hp
              have hd1 : d ∈ (r.dropWhile notSlashQ).takeWhile notQ := by
                rw [hdr]; simp
              have hdq : notQ d = true := mem_takeWhile hd1
              have hrem : ∃ rr, r.dropWhile notSlashQ = d :: rr := by
                rcases e : r.dropWhile notSlashQ with _ | ⟨d', rr⟩
                · rw [e] at hdr; simp [List.takeWhile] at hdr
                · rw [e, List.takeWhile_cons] at hdr
                  by_cases hd' : notQ d' = true
                  · rw [if_pos hd'] at hdr
                    cases hdr
                    exact ⟨rr, rfl⟩
                  · rw [if_neg hd'] at hdr
                    cases hdr
              obtain ⟨rr, hrr⟩ := hrem
              have hdfail : notSlashQ d = false := dropWhile_head_false hrr
              rcases notSlashQ_false_cases hdfail with rfl | rfl
              · refine ⟨rest, ?_⟩
                simp [hp, hdr]
              · exact absurd hdq (by decide)
          · intro a ha
            by_cases hp : (r.dropWhile notSlashQ).takeWhile notQ = []
            · simp [hp] at ha
              subst ha
              decide
            · simp only [if_neg hp] at ha
              exact mem_takeWhile ha
          · rcases e : (r.dropWhile notSlashQ).dropWhile notQ with _ | ⟨d, rr⟩
            · exact Or.inl rfl
            · have := dropWhile_head_false e
              have hd := notQ_false_eq this
              exact Or.inr ⟨rr, by rw [hd]⟩

theorem parseURL_serialize {u : URL} (h : ValidURL u) :
    parseURL u.serializeList = some u := by
  obtain ⟨⟨c, tl, hs, hca, htl⟩, hostne, hhost, ⟨p, hp⟩, hpath, hq⟩ := h
  obtain ⟨h1, hh, hhost'⟩ := List.exists_cons_of_ne_nil hostne
  cases u with
  | mk scheme host path query =>
    simp only at hs hp hhost'
    subst hs hp hhost'
    have hschemeAll : ∀ a ∈ c :: tl, notColon a = true := by
      intro a ha
      rcases List.mem_cons.mp ha with rfl | ha'
      · exact isAlphaChar_notColon hca
      · exact isSchemeTailChar_notColon (by
          have := List.all_eq_true.mp htl a ha'
          simpa using this)
    have hqtail : query.takeWhile notQ = [] ∧ query.dropWhile notQ = query := by
      rcases hq with rfl | ⟨q, rfl⟩
      · simp [List.takeWhile, List.dropWhile]
      · constructor
        · rw [List.takeWhile_cons, if_neg (by decide)]
        · rw [List.dropWhile_cons, if_neg (by decide)]
    have hpath' : ∀ a ∈ p, notQ a = true := by
      intro a ha
      exact hpath a (by simp [ha])
    have hbody : ((h1 :: hh) ++ ('/' :: p) ++ query)
        = (h1 :: hh) ++ ('/' :: (p ++ query)) := by simp
    unfold URL.serializeList
    simp only
    unfold parseURL
    rw [dropWhile_append_of_all hschemeAll, takeWhile_append_of_all hschemeAll]
    simp only [List.dropWhile_cons_of_neg (show ¬ notColon ':' = true by decide),
               List.takeWhile_cons_of_neg (show ¬ notColon ':' = true by decide),
               List.append_nil]
    rw [hbody, takeWhile_append_of_all hhost, dropWhile_append_of_all hhost]
    simp only [List.takeWhile_cons_of_neg (show ¬ notSlashQ '/' = true by decide),
               List.dropWhile_cons_of_neg (show ¬ notSlashQ '/' = true by decide),
               List.append_nil]
    simp only [List.takeWhile_cons_of_pos (show notQ '/' = true by decide),
               List.dropWhile_cons_of_pos (show notQ '/' = true by decide)]
    rw [takeWhile_append_of_all hpath', dropWhile_append_of_all hpath', hqtail.1, hqtail.2]
    simp [hca, htl]

theorem ensureAbsoluteUrl_valid {s t : String} (h : ensureAbsoluteUrl s = some t) :
    ∃ u : URL, ValidURL u ∧ t = u.serialize ∧ parseURL t.data = some u := by
  unfold ensureAbsoluteUrl at h
  split at h
  · exact absurd h (by simp)
  · split at h
    case h_1 u hu =>
      rw [Option.some_inj] at h
      have hv := parseURL_valid hu
      exact ⟨u, hv, h.symm, by
        rw [← h]
        show parseURL u.serializeList = some u
        exact parseURL_serialize hv⟩
    case h_2 =>
      split at h
      case h_1 u hu =>
        rw [Option.some_inj] at h
        have hv := parseURL_valid hu
        exact ⟨u, hv, h.symm, by
          rw [← h]
          show parseURL u.serializeList = some u
          exact parseURL_serialize hv⟩
      case h_2 => exact absurd h (by simp)

/-! ### First-occurrence deduplication -/

/-- Index of the first occurrence of `a` in `l` (length of `l` when absent). -/
def firstIdx (l : List String) (a : String) : Nat :=
  match l with
  | [] => 0
  | x :: xs => if x = a then 0 else firstIdx xs a + 1

theorem mem_dedupFirstAux {seen : List String} {l : List String} {a : String} :
    a ∈ dedupFirstAux seen l ↔ a ∈ l ∧ a ∉ seen := by
  induction l generalizing seen with
  | nil => simp [dedupFirstAux]
  | cons x xs ih =>
    simp only [dedupFirstAux]
    by_cases hx : x ∈ seen
    · rw [if_pos hx, ih]
      constructor
      · rintro ⟨ha, hs⟩
        exact ⟨List.mem_cons_of_mem x ha, hs⟩
      · rintro ⟨ha, hs⟩
        rcases List.mem_cons.mp ha with rfl | ha'
        · exact absurd hx hs
        · exact ⟨ha', hs⟩
    · rw [if_neg hx]
      constructor
      · intro h
        rcases List.mem_cons.mp h with rfl | h'
        · exact ⟨List.mem_cons_self a xs, hx⟩
        · obtain ⟨ha, hs⟩ := ih.mp h'
          exact ⟨List.mem_cons_of_mem x ha, fun hc => hs (List.mem_cons_of_mem x hc)⟩
      · rintro ⟨ha, hs⟩
        rcases List.mem_cons.mp ha with rfl | ha'
        · exact List.mem_cons_self a _
        · by_cases hax : a = x
          · subst hax
            exact List.mem_cons_self a _
          · exact List.mem_cons_of_mem x (ih.mpr ⟨ha', by
              intro hc
              rcases List.mem_cons.mp hc with h1 | h2
              · exact hax h1
              · exact hs h2⟩)

theorem nodup_dedupFirstAux {seen : List String} {l : List String} :
    (dedupFirstAux seen l).Nodup := by
  induction l generalizing seen with
  | nil => simp [dedupFirstAux]
  | cons x xs ih =>
    simp only [dedupFirstAux]
    by_cases hx : x ∈ seen
    · rw [if_pos hx]; exact ih
    · rw [if_neg hx]
      refine List.nodup_cons.mpr ⟨?_, ih⟩
      intro hc
      exact (mem_dedupFirstAux.mp hc).2 (List.mem_cons_self x seen)

theorem pairwise_firstIdx_dedupFirstAux {seen : List String} {l : List String} :
    (dedupFirstAux seen l).Pairwise (fun u v => firstIdx l u < firstIdx l v) := by
  induction l generalizing seen with
  | nil => simp [dedupFirstAux]
  | cons x xs ih =>
    have shift : ∀ w, w ≠ x → firstIdx (x :: xs) w = firstIdx xs w + 1 := by
      intro w hw
      have : ¬ x = w := fun h => hw h.symm
      simp [firstIdx, this]
    have transfer : ∀ seen', x ∈ seen' →
        (dedupFirstAux seen' xs).Pairwise
          (fun u v => firstIdx (x :: xs) u < firstIdx (x :: xs) v) := by
      intro seen' hx'
      have base : (dedupFirstAux seen' xs).Pairwise
          (fun u v => firstIdx xs u < firstIdx xs v) := ih
      refine List.Pairwise.imp_of_mem ?_ base
      intro u v hu hv huv
      have hux : u ≠ x := fun h => (mem_dedupFirstAux.mp hu).2 (h ▸ hx')
      have hvx : v ≠ x := fun h => (mem_dedupFirstAux.mp hv).2 (h ▸ hx')
      rw [shift u hux, shift v hvx]
      omega
    simp only [dedupFirstAux]
    by_cases hx : x ∈ seen
    · rw [if_pos hx]
      exact transfer seen hx
    · rw [if_neg hx]
      refine List.pairwise_cons.mpr ⟨?_, transfer (x :: seen) (List.mem_cons_self x seen)⟩
      intro v hv
      have hvx : v ≠ x := fun h =>
        (mem_dedupFirstAux.mp hv).2 (h ▸ List.mem_cons_self x seen)
      rw [shift v hvx]
      simp [firstIdx]

theorem mem_dedupFirst {l : List String} {a : String} : a ∈ dedupFirst l ↔ a ∈ l := by
  unfold dedupFirst
  rw [mem_dedupFirstAux]
  simp

theorem nodup_dedupFirst (l : List String) : (dedupFirst l).Nodup :=
  nodup_dedupFirstAux

theorem pairwise_firstIdx_dedupFirst (l : List String) :
    (dedupFirst l).Pairwise (fun u v => firstIdx l u < firstIdx l v) :=
  pairwise_firstIdx_dedupFirstAux

/-! ### Submit-handler lemmas -/

theorem handleSubmit_index_zero (st : AppState) (o : FetchOutcome) :
    (handleSubmit st o).1.selectedIndex = 0 := by
  unfold handleSubmit
  split
  · rfl
  · split
    · rfl
    · split
      · split
        · rfl
        · rfl
      · rfl

theorem handleSubmit_inv (st : AppState) (o : FetchOutcome)
    (h : (handleSubmit st o).1.imageUrls ≠ []) :
    (handleSubmit st o).1.selectedIndex < (handleSubmit st o).1.imageUrls.length := by
  rw [handleSubmit_index_zero]
  exact List.length_pos.mpr h

/-! ### The claims -/

/-- C1: for HTML containing, in document order, anchors to `a.png`, `/b.JPG`,
`https://other.test/c.jpeg?x=1` and `d.gif`, with base
`https://site.test/page`, the extractor returns exactly
`["https://site.test/a.png", "https://site.test/b.JPG",
"https://other.test/c.jpeg?x=1"]` in that order: the `.gif` link is excluded,
the suffix match is case-insensitive on the path, and query strings are
preserved. -/
theorem c1_extractor_concrete :
    extractImageLinks
      "<a href=\"a.png\">x</a><a href=\"/b.JPG\">y</a><a href=\"https://other.test/c.jpeg?x=1\">z</a><a href=\"d.gif\">w</a>"
      "https://site.test/page"
    = some ["https://site.test/a.png", "https://site.test/b.JPG",
            "https://other.test/c.jpeg?x=1"] := by decide

/-- C2, as stated, is false on the code: a transport failure rejects the fetch
promise with a `TypeError`, which is an `Error` instance, so the catch clause
shows the error's own message (here `"Failed to fetch"`), not the fallback
`"Unable to fetch the provided URL."`. -/
theorem c2_counterexample :
    (handleSubmit
      { urlInput := "https://site.test/page", imageUrls := [], selectedIndex := 0,
        loading := false, error := "" }
      (FetchOutcome.rejected true "Failed to fetch")).1.error
    ≠ "Unable to fetch the provided URL." := by decide

/-- C2 (amended): whenever the fetch of the normalized URL rejects, the
rejection is caught and an error is shown: the rejected value's own message
when it is an `Error` instance, and the fallback
`"Unable to fetch the provided URL."` only when it is not. -/
theorem c2_rejection_message (st : AppState) (isError : Bool) (message nu : String)
    (h : ensureAbsoluteUrl (trimString st.urlInput) = some nu) :
    (handleSubmit st (FetchOutcome.rejected isError message)).1.error
      = (if isError then message else "Unable to fetch the provided URL.")
    ∧ (handleSubmit st (FetchOutcome.rejected isError message)).2 = true := by
  unfold handleSubmit
  rw [h]
  exact ⟨rfl, rfl⟩

/-- Witness for C2 (amended) at a concrete state and rejection. -/
theorem c2_witness :
    (handleSubmit
      { urlInput := "https://site.test/page", imageUrls := [], selectedIndex := 0,
        loading := false, error := "" }
      (FetchOutcome.rejected false "boom")).1.error
      = (if false then "boom" else "Unable to fetch the provided URL.")
    ∧ (handleSubmit
      { urlInput := "https://site.test/page", imageUrls := [], selectedIndex := 0,
        loading := false, error := "" }
      (FetchOutcome.rejected false "boom")).2 = true :=
  c2_rejection_message
    { urlInput := "https://site.test/page", imageUrls := [], selectedIndex := 0,
      loading := false, error := "" }
    false "boom" "https://site.test/page" (by decide)

/-- C3: in every reachable UI state, whenever the image URL list is non-empty
the selection index satisfies `index < length` (and `0 ≤ index` holds since it
is a natural number); and every submission — whether it fails normalization or
succeeds — resets the selection index to 0. -/
theorem c3_selection_invariant :
    (∀ st : AppState, Reachable st → st.imageUrls ≠ [] →
      st.selectedIndex < st.imageUrls.length)
    ∧ (∀ (st : AppState) (o : FetchOutcome), (handleSubmit st o).1.selectedIndex = 0) := by
  constructor
  · intro st hr
    induction hr with
    | init => intro h; exact absurd rfl h
    | step a hst ih =>
      cases a with
      | setInput s =>
        simp only [stepFn]
        split
        · exact ih
        · exact ih
      | submit o =>
        simp only [stepFn]
        split
        · exact ih
        · exact handleSubmit_inv _ o
      | prev =>
        intro h
        have hlt := ih h
        simp only [stepFn, handlePrev]
        split
        · omega
        · omega
      | next =>
        intro h
        have hlt := ih h
        simp only [stepFn, handleNext]
        split
        · omega
        · omega
      | select i =>
        simp only [stepFn]
        split
        · rename_i hcond
          exact fun _ => hcond
        · exact ih
      | keyUp =>
        simp only [stepFn]
        split
        · exact ih
        · intro h
          have hlt := ih h
          simp only [handlePrev]
          split
          · omega
          · omega
      | keyDown =>
        simp only [stepFn]
        split
        · exact ih
        · intro h
          have hlt := ih h
          simp only [handleNext]
          split
          · omega
          · omega
  · exact handleSubmit_index_zero

/-- Witness for C3 at a concrete reachable state with a non-empty list. -/
theorem c3_witness :
    (stepFn (stepFn initialState (Step.setInput "https://site.test/page"))
        (Step.submit (FetchOutcome.resolved true 200 "<a href=\"a.png\">x</a>"))).selectedIndex
      < (stepFn (stepFn initialState (Step.setInput "https://site.test/page"))
        (Step.submit (FetchOutcome.resolved true 200 "<a href=\"a.png\">x</a>"))).imageUrls.length :=
  c3_selection_invariant.1 _
    (Reachable.step (Step.submit (FetchOutcome.resolved true 200 "<a href=\"a.png\">x</a>"))
      (Reachable.step (Step.setInput "https://site.test/page") Reachable.init))
    (by decide)

/-- C4: every input that already parses as an absolute URL is normalized to
that URL's canonical string form. -/
theorem c4_normalizer_absolute (s : String) (u : URL)
    (h : parseURL s.data = some u) :
    ensureAbsoluteUrl s = some u.serialize := by
  have hne : s ≠ "" := by
    rintro rfl
    have he : parseURL "".data = none := by decide
    rw [he] at h
    cases h
  unfold ensureAbsoluteUrl
  rw [if_neg hne, h]

/-- Witness for C4 at a concrete absolute URL. -/
theorem c4_witness :
    ensureAbsoluteUrl "https://site.test/page"
      = some (URL.serialize ⟨"https".data, "site.test".data, "/page".data, []⟩) :=
  c4_normalizer_absolute "https://site.test/page"
    ⟨"https".data, "site.test".data, "/page".data, []⟩ (by decide)

/-- C5: every input that fails to parse directly but parses once `https://` is
prepended is normalized to the canonical string form of the prefixed URL. -/
theorem c5_normalizer_prefixed (s : String) (u : URL)
    (h1 : parseURL s.data = none)
    (h2 : parseURL (("https://" ++ s).data) = some u) :
    ensureAbsoluteUrl s = some u.serialize := by
  have hne : s ≠ "" := by
    rintro rfl
    have he : parseURL (("https://" ++ "").data) = none := by decide
    rw [he] at h2
    cases h2
  unfold ensureAbsoluteUrl
  rw [if_neg hne, h1, h2]

/-- Witness for C5 at a concrete bare domain. -/
theorem c5_witness :
    ensureAbsoluteUrl "example.com"
      = some (URL.serialize ⟨"https".data, "example.com".data, "/".data, []⟩) :=
  c5_normalizer_prefixed "example.com"
    ⟨"https".data, "example.com".data, "/".data, []⟩ (by decide) (by decide)

/-- C6: the normalizer fails exactly on inputs that are empty or parse neither
directly nor after prepending `https://`; and on such failure the submit
handler shows the validation message, clears the image list (resetting the
selection), and attempts no fetch. -/
theorem c6_invalid_input :
    (∀ s : String, ensureAbsoluteUrl s = none ↔
      (s = "" ∨ (parseURL s.data = none ∧ parseURL (("https://" ++ s).data) = none)))
    ∧ (∀ (st : AppState) (o : FetchOutcome),
        ensureAbsoluteUrl (trimString st.urlInput) = none →
        handleSubmit st o =
          ({ st with error := "Enter a valid URL (include protocol or a valid domain).",
                     imageUrls := [], selectedIndex := 0 }, false)) := by
  constructor
  · intro s
    by_cases hs : s = ""
    · subst hs
      simp [ensureAbsoluteUrl]
    · unfold ensureAbsoluteUrl
      rw [if_neg hs]
      rcases e1 : parseURL s.data with _ | u
      · rcases e2 : parseURL (("https://" ++ s).data) with _ | v
        · simp only [e1, e2]
          simp [hs]
        · simp only [e1, e2]
          simp [hs]
      · simp only [e1]
        simp [hs]
  · intro st o h
    unfold handleSubmit
    rw [h]

/-- Witness for C6 at the initial (empty-input) state. -/
theorem c6_witness :
    handleSubmit initialState (FetchOutcome.rejected true "boom") =
      ({ initialState with
           error := "Enter a valid URL (include protocol or a valid domain).",
           imageUrls := [], selectedIndex := 0 }, false) :=
  c6_invalid_input.2 initialState (FetchOutcome.rejected true "boom") (by decide)

/-- C7: for every HTML text and valid base URL, the extractor's result has no
duplicates, contains exactly the qualifying resolved URLs, and lists them in
the order of their first occurrences. -/
theorem c7_dedup_first_occurrence (htmlText baseStr : String) (base : URL)
    (r : List String)
    (hb : parseURL baseStr.data = some base)
    (he : extractImageLinks htmlText baseStr = some r) :
    r.Nodup ∧ (∀ u, u ∈ r ↔ u ∈ qualifyingUrls htmlText base)
      ∧ r.Pairwise (fun u v =>
          firstIdx (qualifyingUrls htmlText base) u
            < firstIdx (qualifyingUrls htmlText base) v) := by
  unfold extractImageLinks at he
  rw [hb, Option.some_inj] at he
  subst he
  exact ⟨nodup_dedupFirst _, fun u => mem_dedupFirst, pairwise_firstIdx_dedupFirst _⟩

/-- Witness for C7: two anchors resolving to the same URL yield one
duplicate-free entry. -/
theorem c7_witness :
    (["https://site.test/a.png"] : List String).Nodup :=
  (c7_dedup_first_occurrence
    "<a href=\"a.png\">x</a><a href=\"a.png\">y</a>" "https://site.test/page"
    ⟨"https".data, "site.test".data, "/page".data, []⟩
    ["https://site.test/a.png"] (by decide) (by decide)).1

/-- C8: a previous-navigation step at index 0 leaves the selection at 0, and a
next-navigation step at the last index leaves it unchanged — clamped at the
bounds, no wraparound, no error. -/
theorem c8_navigation_clamped (st : AppState) :
    (st.selectedIndex = 0 → handlePrev st = st ∧ stepFn st Step.keyUp = st)
    ∧ (st.selectedIndex = st.imageUrls.length - 1 →
        handleNext st = st ∧ stepFn st Step.keyDown = st) := by
  obtain ⟨ui, iu, si, lo, er⟩ := st
  constructor
  · intro h0
    have h0' : si = 0 := h0
    subst h0'
    have hp : handlePrev ⟨ui, iu, 0, lo, er⟩ = ⟨ui, iu, 0, lo, er⟩ := by
      simp [handlePrev]
    refine ⟨hp, ?_⟩
    simp only [stepFn]
    split
    · rfl
    · exact hp
  · intro hl
    have hl' : si = iu.length - 1 := hl
    subst hl'
    have hn : handleNext ⟨ui, iu, iu.length - 1, lo, er⟩ = ⟨ui, iu, iu.length - 1, lo, er⟩ := by
      simp [handleNext]
    refine ⟨hn, ?_⟩
    simp only [stepFn]
    split
    · rfl
    · exact hn

/-- Witness for C8 at a concrete one-element state. -/
theorem c8_witness :
    (handlePrev { urlInput := "", imageUrls := ["https://site.test/a.png"],
                  selectedIndex := 0, loading := false, error := "" }
      = { urlInput := "", imageUrls := ["https://site.test/a.png"],
          selectedIndex := 0, loading := false, error := "" }
    ∧ stepFn { urlInput := "", imageUrls := ["https://site.test/a.png"],
               selectedIndex := 0, loading := false, error := "" } Step.keyUp
      = { urlInput := "", imageUrls := ["https://site.test/a.png"],
          selectedIndex := 0, loading := false, error := "" })
    ∧ (handleNext { urlInput := "", imageUrls := ["https://site.test/a.png"],
                    selectedIndex := 0, loading := false, error := "" }
      = { urlInput := "", imageUrls := ["https://site.test/a.png"],
          selectedIndex := 0, loading := false, error := "" }
    ∧ stepFn { urlInput := "", imageUrls := ["https://site.test/a.png"],
               selectedIndex := 0, loading := false, error := "" } Step.keyDown
      = { urlInput := "", imageUrls := ["https://site.test/a.png"],
          selectedIndex := 0, loading := false, error := "" }) :=
  ⟨(c8_navigation_clamped _).1 rfl, (c8_navigation_clamped _).2 (by decide)⟩

/-- C9: the normalizer is idempotent on its successes — normalizing a returned
canonical string returns that same string. -/
theorem c9_normalizer_idempotent (s t : String)
    (h : ensureAbsoluteUrl s = some t) :
    ensureAbsoluteUrl t = some t := by
  obtain ⟨u, hv, ht, hp⟩ := ensureAbsoluteUrl_valid h
  subst ht
  have hne : u.serialize ≠ "" := by
    intro heq
    have hdata : u.serializeList = [] := by
      have := congrArg String.data heq
      simpa [URL.serialize] using this
    obtain ⟨⟨c, tl, hs, -, -⟩, -⟩ := hv
    rw [URL.serializeList, hs] at hdata
    simp at hdata
  unfold ensureAbsoluteUrl
  rw [if_neg hne, hp]

/-- Witness for C9: renormalizing the output for a bare-domain input. -/
theorem c9_witness :
    ensureAbsoluteUrl "https://example.com/" = some "https://example.com/" :=
  c9_normalizer_idempotent "example.com" "https://example.com/" (by decide)

/-- C10: for every HTML text and every base string that parses as an absolute
URL, the extractor returns a list without signaling an error (malformed hrefs
are silently dropped by resolution); but for the invalid base `"not a url"`
the base-URL construction itself throws, so the no-error guarantee does not
extend to invalid bases. -/
theorem c10_extractor_safety :
    (∀ (htmlText baseUrl : String) (base : URL), parseURL baseUrl.data = some base →
      ∃ l, extractImageLinks htmlText baseUrl = some l)
    ∧ extractImageLinks "<a href=\"x.png\">x</a>" "not a url" = none := by
  constructor
  · intro htmlText baseUrl base hb
    refine ⟨dedupFirst (qualifyingUrls htmlText base), ?_⟩
    unfold extractImageLinks
    rw [hb]
  · decide

/-- Witness for C10 at a concrete valid base. -/
theorem c10_witness :
    extractImageLinks "<a href=\"x.png\">x</a>" "https://site.test/" ≠ none := by
  have h := (c10_extractor_safety.1 "<a href=\"x.png\">x</a>" "https://site.test/"
    ⟨"https".data, "site.test".data, "/".data, []⟩ (by decide))
  obtain ⟨l, hl⟩ := h
  rw [hl]
  simp

end ImageBrowser
